import Mathlib

/-!
Verification development for the word-cloud plugin (WordCloudSeries.ts) and
the time-unit rounding utility (Time.ts) of the charting library.

The TypeScript sources are embedded shallowly:
* JS numbers are modelled as `ℚ` (exact rational arithmetic) where fractional
  values occur, and as `ℕ`/`ℤ` for counts and pixel indices;
* the mutable per-render state of a layout pass (off-screen raster, candidate
  point list, scheduling index) is passed explicitly;
* `Date` objects are records of UTC calendar fields, with setter normalization
  (day-of-month overflow/underflow borrowing) made explicit.
-/

namespace WC

/-! ## Word extraction (getWords, WordCloudSeries.ts lines 1093-1163) -/

/-- One output entry of `getWords`: a word and its occurrence count. -/
structure WordEntry where
  word : String
  value : Nat
deriving DecidableEq

/-- Character-wise lowercasing, the model of `String.prototype.toLowerCase`. -/
def lowerStr (s : String) : String := String.mk (s.data.map Char.toLower)

/-- The ASCII portion of the word regular expression character class used by
`getWords` (WordCloudSeries.ts line 1098): Latin letters `A-Z`/`a-z` (the class
lists both, and the regex also carries the `i` flag), digits `0-9`, `@` and `+`.
The non-ASCII ranges of the class are omitted; all inputs considered here are
ASCII. -/
def asciiWordChar (c : Char) : Bool :=
  ( 'A' ≤ c && c ≤ 'Z') || ( 'a' ≤ c && c ≤ 'z') || ( '0' ≤ c && c ≤ '9')
    || c == '@' || c == '+'

/-- Accumulator-style scanner producing the maximal nonempty runs of characters
satisfying `p`, in input order: the result of `input.match(reg)` for the global
one-or-more character-class regex of `getWords`. `acc` holds the current run,
reversed. -/
def tokenizeAux (p : Char → Bool) : List Char → List Char → List String
  | [], acc => if acc.isEmpty then [] else [String.mk acc.reverse]
  | c :: cs, acc =>
    if p c then tokenizeAux p cs (c :: acc)
    else if acc.isEmpty then tokenizeAux p cs []
    else String.mk acc.reverse :: tokenizeAux p cs []

/-- Tokens of `input.match(reg)` in match order; `[]` models the `null` result
(no match). -/
def tokenize (p : Char → Bool) (s : String) : List String := tokenizeAux p s.data []

/-- Model of `isCapitalized` (WordCloudSeries.ts lines 1171-1176):
`word[0] != lword[0] && word.substr(1) == lword.substr(1) && word != lword`
where `lword` is the lowercased word. An empty word yields `false` (in JS both
`word[0]` and `lword[0]` are `undefined`, so the first conjunct fails). -/
def isCapitalized (w : String) : Bool :=
  let lw := lowerStr w
  decide (w.data.head? ≠ lw.data.head?) && decide (w.data.tail = lw.data.tail)
    && decide (w ≠ lw)

/-- One step of the frequency-count loop of `getWords` (lines 1106-1126): look
for an existing entry with the same lowercase form; if found, bump its count
and, when the incoming token is not capitalized, adopt the incoming spelling;
otherwise append a fresh entry with count 1. -/
def addWord : List WordEntry → String → List WordEntry
  | [], w => [⟨w, 1⟩]
  | e :: rest, w =>
    if lowerStr e.word == lowerStr w then
      ⟨if isCapitalized w then e.word else w, e.value + 1⟩ :: rest
    else
      e :: addWord rest w

/-- The `while (word = res.pop())` loop consumes the match list from its end,
so entries accumulate in reverse match order. -/
def countWords (tokens : List String) : List WordEntry :=
  tokens.reverse.foldl addWord []

/-- Filtering/truncation configuration of `getWords`. An unset `minValue`
(the class sets no default) makes both `this.minValue > 1` and
`w.value < this.minValue` false in JS, which coincides with `minValue = 0`
here; `minWordLength` defaults to 1; an unset `maxCount` is `none`. -/
structure WordsConfig where
  minValue : Nat
  minWordLength : Nat
  excludeWords : List String
  maxCount : Option Nat

/-- The body of one iteration of the filter loop (lines 1130-1141): the three
conditions are each checked on the entry `w` read *before* any splice, and each
firing condition performs `words.splice(i, 1)` on the current array — so a word
failing several conditions removes further elements at index `i`.
`List.eraseIdx` with an out-of-range index is the identity, exactly like
`splice(i, 1)` with `i ≥ length`. -/
def spliceSteps (cfg : WordsConfig) (w : WordEntry) (ws : List WordEntry) (i : Nat) :
    List WordEntry :=
  let ws1 := if w.value < cfg.minValue then ws.eraseIdx i else ws
  let ws2 := if w.word.length < cfg.minWordLength then ws1.eraseIdx i else ws1
  if cfg.excludeWords.contains w.word then ws2.eraseIdx i else ws2

/-- The filter loop `for (let i = words.length - 1; i >= 0; i--)`: indices are
visited downwards; `filterAux cfg ws (i+1)` processes index `i` next. The
`none` branch is unreachable when entered at `ws.length` (splices at index `i`
only remove elements at positions `≥ i`, all of which lie below the running
index), and is the identity step. -/
def filterAux (cfg : WordsConfig) : List WordEntry → Nat → List WordEntry
  | ws, 0 => ws
  | ws, i + 1 =>
    match ws[i]? with
    | none => filterAux cfg ws i
    | some w => filterAux cfg (spliceSteps cfg w ws i) i

/-- The guarded filter pass (lines 1128-1142). -/
def filterWords (cfg : WordsConfig) (ws : List WordEntry) : List WordEntry :=
  if 1 < cfg.minValue || 1 < cfg.minWordLength || 0 < cfg.excludeWords.length then
    filterAux cfg ws ws.length
  else ws

/-- The sort comparator of `getWords` (lines 1144-1154) and of
`WordCloudSeries.validate` (lines 450-460): it returns `-1` (keep `a` first)
when `a.value > b.value`, `0` on ties, else `1`; a stable sort under it keeps
`a` before `b` exactly when `b.value ≤ a.value`. -/
def valueDescBefore (a b : WordEntry) : Bool := decide (b.value ≤ a.value)

/-- The sort call `words.sort(...)`; JS engines implement a stable merge sort,
modelled by `List.mergeSort` with the comparator above. -/
def sortWords (ws : List WordEntry) : List WordEntry := ws.mergeSort valueDescBefore

/-- The identical descending sort applied by `validate` to the series data
items (represented by their numeric values). -/
def sortDataItems (items : List ℚ) : List ℚ :=
  items.mergeSort fun a b => decide (b ≤ a)

/-- The `words.slice(0, this.maxCount)` truncation (lines 1157-1159), applied
only when `words.length > maxCount`; with `maxCount` unset the comparison is
false and nothing is truncated. -/
def truncateWords (maxCount : Option Nat) (ws : List WordEntry) : List WordEntry :=
  match maxCount with
  | none => ws
  | some m => if m < ws.length then ws.take m else ws

/-- Model of `getWords` (lines 1093-1163). A falsy input (the empty string is
the only falsy string) skips the whole body and returns `undefined`, modelled
as `none`; a non-`null` match list feeds the count/filter/sort/truncate
pipeline; a `null` match list returns the empty array. -/
def getWords (p : Char → Bool) (cfg : WordsConfig) (input : String) :
    Option (List WordEntry) :=
  if input = "" then none
  else
    let res := tokenize p input
    if res.isEmpty then some []
    else some (truncateWords cfg.maxCount (sortWords (filterWords cfg (countWords res))))

/-! ### Sortedness lemmas -/

theorem sortWords_pairwise (ws : List WordEntry) :
    (sortWords ws).Pairwise fun a b => b.value ≤ a.value := by
  have h := @List.sorted_mergeSort WordEntry valueDescBefore
    (fun a b c hab hbc => by
      simp only [valueDescBefore, decide_eq_true_eq] at hab hbc ⊢; omega)
    (fun a b => by
      simp only [valueDescBefore, Bool.or_eq_true, decide_eq_true_eq]; omega)
    ws
  exact h.imp fun hab => by
    simpa only [valueDescBefore, decide_eq_true_eq] using hab

theorem sortDataItems_pairwise (items : List ℚ) :
    (sortDataItems items).Pairwise fun a b : ℚ => b ≤ a := by
  have h := @List.sorted_mergeSort ℚ (fun a b : ℚ => decide (b ≤ a))
    (fun a b c hab hbc => by
      simp only [decide_eq_true_eq] at hab hbc ⊢; exact hbc.trans hab)
    (fun a b => by
      simp only [Bool.or_eq_true, decide_eq_true_eq]; exact (le_total b a))
    items
  exact h.imp fun hab => by simpa only [decide_eq_true_eq] using hab

theorem truncateWords_pairwise {R : WordEntry → WordEntry → Prop}
    (mc : Option Nat) {ws : List WordEntry} (h : ws.Pairwise R) :
    (truncateWords mc ws).Pairwise R := by
  cases mc with
  | none => exact h
  | some m =>
    simp only [truncateWords]
    split
    · exact List.Pairwise.sublist (List.take_sublist m ws) h
    · exact h

/-- C5: words are ranked in descending order of frequency before layout. The
result of `getWords` (after its sort and truncation) and the result of the
data-item sort in `validate` both have every earlier entry's value at least
the later entry's value; the raw `sortWords` output likewise. -/
theorem getWords_and_validate_sort_descending (p : Char → Bool) (cfg : WordsConfig)
    (s : String) (l : List WordEntry) (items : List ℚ)
    (h : getWords p cfg s = some l) :
    l.Chain' (fun a b => b.value ≤ a.value) ∧
    (sortDataItems items).Chain' (fun a b : ℚ => b ≤ a) ∧
    ∀ ws : List WordEntry, (sortWords ws).Chain' fun a b => b.value ≤ a.value := by
  refine ⟨?_, (sortDataItems_pairwise items).chain', fun ws => (sortWords_pairwise ws).chain'⟩
  by_cases hs : s = ""
  · simp [getWords, hs] at h
  · simp only [getWords] at h
    rw [if_neg hs] at h
    by_cases ht : (tokenize p s).isEmpty = true
    · rw [if_pos ht] at h
      cases h; exact List.chain'_nil
    · rw [if_neg ht] at h
      cases h
      exact (truncateWords_pairwise cfg.maxCount
        (sortWords_pairwise (filterWords cfg (countWords (tokenize p s))))).chain'

/-- Witness for C5 at a concrete input: sorting the frequencies of
"hi hi yo" and the value list `[1, 2]`. -/
theorem getWords_and_validate_sort_descending_witness :
    (WC.getWords asciiWordChar ⟨0, 1, [], none⟩ "hi hi yo" =
      some [⟨"hi", 2⟩, ⟨"yo", 1⟩]) ∧
    [WordEntry.mk "hi" 2, WordEntry.mk "yo" 1].Chain' (fun a b => b.value ≤ a.value) ∧
    (sortDataItems [1, 2]).Chain' (fun a b : ℚ => b ≤ a) ∧
    ∀ ws : List WordEntry, (sortWords ws).Chain' fun a b => b.value ≤ a.value := by
  have heval : WC.getWords asciiWordChar ⟨0, 1, [], none⟩ "hi hi yo" =
      some [⟨"hi", 2⟩, ⟨"yo", 1⟩] := by
    have htok : tokenize asciiWordChar "hi hi yo" = ["hi", "hi", "yo"] := by decide
    have hf : filterWords ⟨0, 1, [], none⟩
        (countWords ["hi", "hi", "yo"]) = [⟨"yo", 1⟩, ⟨"hi", 2⟩] := by
      decide
    have hsrt : sortWords [⟨"yo", 1⟩, ⟨"hi", 2⟩] = [⟨"hi", 2⟩, ⟨"yo", 1⟩] := by
      simp [sortWords, List.mergeSort, List.merge, valueDescBefore]
    simp [getWords, htok, hf, hsrt, truncateWords]
  exact ⟨heval,
    (getWords_and_validate_sort_descending asciiWordChar ⟨0, 1, [], none⟩
      "hi hi yo" [⟨"hi", 2⟩, ⟨"yo", 1⟩] [1, 2] heval).1,
    (getWords_and_validate_sort_descending asciiWordChar ⟨0, 1, [], none⟩
      "hi hi yo" [⟨"hi", 2⟩, ⟨"yo", 1⟩] [1, 2] heval).2.1,
    (getWords_and_validate_sort_descending asciiWordChar ⟨0, 1, [], none⟩
      "hi hi yo" [⟨"hi", 2⟩, ⟨"yo", 1⟩] [1, 2] heval).2.2⟩

/-! ### The filter-loop double-splice defect (C8) -/

/-- C8: evaluating `getWords` at the failing input. In the text
"hello a a" with `minWordLength = 2` and `excludeWords = ["a"]`, the entry
"a" fails two filter conditions; the second in-loop `splice` at the same index
then deletes the entry "hello" — which has value 1 ≥ minValue, length 5 ≥ 2 and
is not excluded — so the final result is empty instead of containing "hello". -/
theorem getWords_filter_double_splice_bug :
    WC.getWords asciiWordChar ⟨0, 2, ["a"], none⟩ "hello a a" = some [] ∧
    countWords (tokenize asciiWordChar "hello a a") =
      [⟨"a", 2⟩, ⟨"hello", 1⟩] ∧
    ¬ ((1 : Nat) < 0 ∨ "hello".length < 2 ∨ ["a"].contains "hello" = true) := by
  refine ⟨?_, by decide, by decide⟩
  have h : filterWords ⟨0, 2, ["a"], none⟩
      (countWords (tokenize asciiWordChar "hello a a")) = [] := by decide
  simp [getWords, h, sortWords, truncateWords]

/-! ### Empty and missing results of getWords (C9) -/

/-- C9: `getWords` returns `undefined` (here `none`) for the falsy empty
string, returns the empty array when a non-empty input has no token matched by
the word regular expression, and returns a populated array only when at least
one token matches. -/
theorem getWords_empty_cases (p : Char → Bool) (cfg : WordsConfig) (s : String)
    (hs : s ≠ "") :
    getWords p cfg "" = none ∧
    (tokenize p s = [] → getWords p cfg s = some []) ∧
    ∀ l, getWords p cfg s = some l → l ≠ [] → tokenize p s ≠ [] := by
  refine ⟨by simp [getWords], fun ht => by simp [getWords, hs, ht], ?_⟩
  intro l hl hne ht
  simp only [getWords, hs, if_false, ht, List.isEmpty_nil, if_true,
    Option.some.injEq] at hl
  exact hne hl.symm

/-- Witness for C9 at concrete inputs: "!!!" is non-empty yet has no word
token. -/
theorem getWords_empty_cases_witness :
    ("!!!" ≠ "") ∧
    (WC.getWords asciiWordChar ⟨0, 1, [], none⟩ "" = none ∧
      (tokenize asciiWordChar "!!!" = [] →
        WC.getWords asciiWordChar ⟨0, 1, [], none⟩ "!!!" = some []) ∧
      ∀ l, WC.getWords asciiWordChar ⟨0, 1, [], none⟩ "!!!" = some l → l ≠ [] →
        tokenize asciiWordChar "!!!" ≠ []) := by
  exact ⟨by decide, getWords_empty_cases asciiWordChar ⟨0, 1, [], none⟩ "!!!" (by decide)⟩

/-! ## Font size assignment (processItem, WordCloudSeries.ts lines 575-584) -/

/-- A font size setting: either an absolute pixel value or a `Percent`. -/
inductive FontSizeSpec where
  | abs (v : ℚ)
  | pct (v : ℚ)

/-- Modelled from the spec: `$utils.relativeToValue` (core/utils/Utils.ts, not
under src) resolves a plain number to itself and a `Percent` against the given
base — here the smaller of inner width and inner height, per the spec's
"each resolved against the smaller of inner width and inner height when given
as Percent". -/
def relativeToValue (fs : FontSizeSpec) (base : ℚ) : ℚ :=
  match fs with
  | .abs v => v
  | .pct v => v / 100 * base

/-- The font size computed by `processItem` (lines 575-581):
`smallerSize = min(innerHeight, innerWidth)`,
`percent = (value - low) / high`, and
`fontSize = minFontSize + (maxFontSize - minFontSize) * percent * _adjustedFont`. -/
def processFontSize (minFS maxFS : FontSizeSpec) (innerW innerH : ℚ)
    (value low high adjustedFont : ℚ) : ℚ :=
  let smallerSize := min innerH innerW
  let minFont := relativeToValue minFS smallerSize
  let maxFont := relativeToValue maxFS smallerSize
  minFont + (maxFont - minFont) * ((value - low) / high) * adjustedFont

/-- The font size as claim C1 states it: linear interpolation between the
resolved minimum and maximum sizes at the relative frequency position
`(value - low) / (high - low)`, with both endpoints scaled by the global
adjustment factor. -/
def claimedFontSize (minFS maxFS : FontSizeSpec) (innerW innerH : ℚ)
    (value low high adjustedFont : ℚ) : ℚ :=
  let smallerSize := min innerH innerW
  let minFont := relativeToValue minFS smallerSize
  let maxFont := relativeToValue maxFS smallerSize
  (minFont + (maxFont - minFont) * ((value - low) / (high - low))) * adjustedFont

/-- Counterexample to C1: with absolute sizes 10 and 20, values low = 1 and
high = 2, adjustment 1, the word with the highest value (2) gets
`10 + 10 * ((2 - 1) / 2) = 15`, not the claimed maximum 20: the code divides
by `high`, not by `high - low`. -/
theorem processFontSize_not_claimed_interpolation :
    processFontSize (.abs 10) (.abs 20) 100 100 2 1 2 1 = 15 ∧
    claimedFontSize (.abs 10) (.abs 20) 100 100 2 1 2 1 = 20 ∧
    processFontSize (.abs 10) (.abs 20) 100 100 2 1 2 1 ≠
      claimedFontSize (.abs 10) (.abs 20) 100 100 2 1 2 1 := by
  refine ⟨?_, ?_, ?_⟩ <;> norm_num [processFontSize, claimedFontSize, relativeToValue]

/-- C1 as amended: the font size is
`minFont + (maxFont - minFont) * ((value - low) / high) * _adjustedFont` with
the endpoints resolved against the smaller inner dimension; the word with the
lowest value receives exactly the resolved minimum size (not scaled by
`_adjustedFont`), and the word with the highest value receives the resolved
maximum size only in the special case `low = 0` and `_adjustedFont = 1` (with
`high ≠ 0`). -/
theorem processFontSize_characterization (minFS maxFS : FontSizeSpec)
    (innerW innerH value low high adj : ℚ) (hhigh : high ≠ 0) :
    processFontSize minFS maxFS innerW innerH value low high adj =
      relativeToValue minFS (min innerH innerW) +
        (relativeToValue maxFS (min innerH innerW) -
          relativeToValue minFS (min innerH innerW)) * ((value - low) / high) * adj ∧
    (value = low →
      processFontSize minFS maxFS innerW innerH value low high adj =
        relativeToValue minFS (min innerH innerW)) ∧
    (low = 0 → adj = 1 → value = high →
      processFontSize minFS maxFS innerW innerH value low high adj =
        relativeToValue maxFS (min innerH innerW)) := by
  refine ⟨rfl, fun hv => ?_, fun h0 ha hv => ?_⟩
  · simp [processFontSize, hv]
  · subst h0 ha hv
    simp only [processFontSize, sub_zero]
    rw [div_self hhigh]
    ring

/-- Witness for C1's amended statement at a concrete input: sizes 10 and 20,
low = 0, high = 4, adjustment 1. -/
theorem processFontSize_characterization_witness :
    ((4 : ℚ) ≠ 0) ∧
    (processFontSize (.abs 10) (.abs 20) 100 100 3 0 4 1 =
      relativeToValue (.abs 10) (min 100 100) +
        (relativeToValue (.abs 20) (min 100 100) -
          relativeToValue (.abs 10) (min 100 100)) * (((3 : ℚ) - 0) / 4) * 1 ∧
    ((3 : ℚ) = 0 →
      processFontSize (.abs 10) (.abs 20) 100 100 3 0 4 1 =
        relativeToValue (.abs 10) (min 100 100)) ∧
    ((0 : ℚ) = 0 → (1 : ℚ) = 1 → (3 : ℚ) = 4 →
      processFontSize (.abs 10) (.abs 20) 100 100 3 0 4 1 =
        relativeToValue (.abs 20) (min 100 100))) :=
  ⟨by norm_num,
    processFontSize_characterization (.abs 10) (.abs 20) 100 100 3 0 4 1 (by norm_num)⟩

/-! ## Rotation angle selection (processItem lines 586-589) -/

/-- Angle selection: a word is rotated only when its relative font size
`(fontSize - minFont) / (maxFont - minFont)` is strictly below
`rotationThreshold`, in which case the angle is
`angles[Math.round(Math.random() * (angles.length - 1))]`; `k` stands for that
random index. Otherwise the initial `angle = 0` is kept. -/
def chooseAngle (fontSize minFont maxFont threshold : ℚ) (angles : List ℤ)
    (k : ℕ) : ℤ :=
  if (fontSize - minFont) / (maxFont - minFont) < threshold then angles.getD k 0
  else 0

/-- C6: a word whose relative font size is at least the rotation threshold is
never rotated (angle 0); a word strictly below the threshold gets the randomly
indexed entry of the configured angles array. The hypothesis
`maxFont ≠ minFont` keeps the relative size well defined (in JS a zero span
makes it NaN and every comparison false). -/
theorem chooseAngle_threshold (fontSize minFont maxFont threshold : ℚ)
    (angles : List ℤ) (k : ℕ) (hk : k < angles.length)
    (hspan : maxFont ≠ minFont) :
    (threshold ≤ (fontSize - minFont) / (maxFont - minFont) →
      chooseAngle fontSize minFont maxFont threshold angles k = 0) ∧
    ((fontSize - minFont) / (maxFont - minFont) < threshold →
      chooseAngle fontSize minFont maxFont threshold angles k = angles[k] ∧
      chooseAngle fontSize minFont maxFont threshold angles k ∈ angles) := by
  constructor
  · intro hge
    rw [chooseAngle, if_neg (not_lt.mpr hge)]
  · intro hlt
    rw [chooseAngle, if_pos hlt]
    rw [List.getD_eq_getElem?_getD, List.getElem?_eq_getElem hk]
    exact ⟨rfl, List.getElem_mem hk⟩

/-- Witness for C6 with the default angles `[0, 0, 90]`, threshold 0.7, and a
relative size 0.2 below the threshold. -/
theorem chooseAngle_threshold_witness :
    ((2 : ℕ) < 3) ∧ ((10 : ℚ) ≠ 0) ∧
    (((7 : ℚ) / 10 ≤ ((2 : ℚ) - 0) / ((10 : ℚ) - 0) →
      chooseAngle 2 0 10 (7 / 10) [0, 0, 90] 2 = 0) ∧
    (((2 : ℚ) - 0) / ((10 : ℚ) - 0) < 7 / 10 →
      chooseAngle 2 0 10 (7 / 10) [0, 0, 90] 2 = ([0, 0, 90] : List ℤ)[2] ∧
      chooseAngle 2 0 10 (7 / 10) [0, 0, 90] 2 ∈ ([0, 0, 90] : List ℤ))) :=
  ⟨by norm_num, by norm_num,
    chooseAngle_threshold 2 0 10 (7 / 10) [0, 0, 90] 2 (by norm_num) (by norm_num)⟩

/-! ## The off-screen raster and the candidate-site search
(processItem, WordCloudSeries.ts lines 597-691) -/

/-- A point (candidate site or pixel position), in canvas coordinates. -/
abbrev Pt := ℤ × ℤ

/-- The off-screen raster: the value of each RGBA channel (0-3) of each canvas
pixel, as read back through `getImageData`. -/
def Raster := ℤ → ℤ → ℕ → ℕ

/-- The canvas after `validate` fills it white: every channel of every pixel
is 255. -/
def whiteRaster : Raster := fun _ _ _ => 255

/-- Channel values painted by `fillStyle = "blue"`: red 0, green 0, blue 255,
alpha 255. -/
def blueChannel (ch : ℕ) : ℕ := if ch = 0 ∨ ch = 1 then 0 else 255

/-- The per-word geometry that `processItem` reads off the validated label:
bounding-box extents `maxLeft`/`maxRight`/`maxTop`/`maxBottom`, pixel margins,
the text length, the rotation angle, and the set of pixels the canvas
rasterizer lights when the glyph is stamped by `fillText` (given relative to
the text anchor; font rendering is outside the embedding, so the glyph pixel
set is carried as data). -/
structure LabelGeom where
  maxL : ℤ
  maxR : ℤ
  maxT : ℤ
  maxB : ℤ
  marginLeft : ℤ
  marginRight : ℤ
  marginTop : ℤ
  marginBottom : ℤ
  textLen : ℕ
  angle : ℤ
  glyph : List Pt
deriving DecidableEq

/-- A getImageData rectangle: origin and size in pixels. -/
structure Rect where
  x : ℤ
  y : ℤ
  w : ℕ
  h : ℕ

/-- The margin-expanded bounding box `rect1` of lines 633-635, shifted by
`+ w/2`, `+ h/2` as in the `getImageData` call; `halfW`/`halfH` stand for
`innerWidth / 2` and `innerHeight / 2`. Negative sizes clamp to 0 (an empty
read). -/
def wordRect (g : LabelGeom) (halfW halfH : ℤ) (pt : Pt) : Rect where
  x := pt.1 + g.maxL - g.marginLeft + halfW
  y := pt.2 + g.maxT - g.marginTop + halfH
  w := (g.maxR - g.maxL + g.marginLeft + g.marginRight).toNat
  h := (g.maxB - g.maxT + g.marginTop + g.marginBottom).toNat

/-- Length of the flattened RGBA data array of the rectangle. -/
def imageDataLen (rc : Rect) : ℕ := 4 * rc.w * rc.h

/-- The canvas pixel addressed by flat index `i` of the rectangle's image
data: 4 bytes per pixel, row-major. -/
def idxPos (rc : Rect) (i : ℕ) : Pt :=
  (rc.x + ((i / 4) % rc.w : ℕ), rc.y + ((i / 4 / rc.w : ℕ)))

/-- The byte at flat index `i` of `getImageData(rc).data`. -/
def imageDataAt (r : Raster) (rc : Rect) (i : ℕ) : ℕ :=
  r (idxPos rc i).1 (idxPos rc i).2 (i % 4)

/-- The flat indices visited by the collision for-loop of lines 636-654:
`i = 0, s, 2s, ...` with `s = Math.pow(2, accuracy)`, i.e. the multiples of
`s` below the data length. -/
def sampledIndices (len accuracy : ℕ) : List ℕ :=
  (List.range len).filter fun i => i % 2 ^ accuracy == 0

/-- The collision check: a hit is reported as soon as some sampled byte
differs from 255; the early break does not change the decision. -/
def sampleHit (data : ℕ → ℕ) (len accuracy : ℕ) : Bool :=
  (sampledIndices len accuracy).any fun i => data i != 255

/-- The in-loop point-list pruning of lines 639-650: when the site is
rejected, a text longer than 3 characters whose box is narrow (unrotated,
width < 60) or short (rotated by ±90, height < 50) causes
`this._points.splice(p, 1)`. -/
def spliceCurrentPoint (g : LabelGeom) : Bool :=
  decide (3 < g.textLen) &&
    ((g.angle == 0 && decide (g.maxR - g.maxL < 60)) ||
      (g.angle.natAbs == 90 && decide (g.maxB - g.maxT < 50)))

/-- The `while (intersects)` search of lines 615-656: starting from candidate
index `p`, exit with `none` as soon as `p > points.length - 1` (the word is
given up); otherwise test the site `points[p]`; on a hit, possibly splice the
current point out and advance `p` by 5; on a miss, accept the site. Returns
the accepted point (or `none`) and the possibly shortened point list. -/
def searchLoop (r : Raster) (accuracy : ℕ) (g : LabelGeom) (halfW halfH : ℤ) :
    List Pt → ℕ → Option Pt × List Pt
  | points, p =>
    if h : points.length ≤ p then (none, points)
    else
      let pt := points.get ⟨p, by omega⟩
      let rc := wordRect g halfW halfH pt
      if sampleHit (imageDataAt r rc) (imageDataLen rc) accuracy then
        searchLoop r accuracy g halfW halfH
          (if spliceCurrentPoint g then points.eraseIdx p else points) (p + 5)
      else (some pt, points)
termination_by points p => points.length - p
decreasing_by
  split
  · simp only [List.length_eraseIdx]
    split <;> omega
  · omega

/-- Stamping of lines 666-678: `fillText` paints the glyph pixel set blue
around the anchor `(x + w/2, y + h/2)`; every other pixel keeps its value. -/
def stampGlyph (r : Raster) (glyph : List Pt) (c : Pt) : Raster :=
  fun x y ch => if (x - c.1, y - c.2) ∈ glyph then blueChannel ch else r x y ch

/-- The observable outcome of one `processItem` invocation: either the word is
left unplaced and the series is invalidated with a shrunken `_adjustedFont`
(lines 616-620), or the word is placed at the accepted point, its glyph is
stamped, and a follow-up timer is scheduled or not (lines 657-691). -/
inductive PIOutcome where
  | restart (adjustedFont : ℚ) (points : List Pt)
  | placed (pt : Pt) (raster : Raster) (points : List Pt) (scheduled : Bool)

/-- One `processItem` invocation after the font size and geometry are fixed:
run the candidate search from the randomized start index `p0`; on exhaustion
decrease `_adjustedFont` by 0.1 and invalidate (restart); on acceptance stamp
the glyph and schedule a follow-up exactly when
`_currentIndex < dataItems.length - 1` (line 685). -/
def processItemModel (r : Raster) (accuracy : ℕ) (g : LabelGeom) (halfW halfH : ℤ)
    (points : List Pt) (p0 : ℕ) (adjustedFont : ℚ) (currentIndex nItems : ℕ) :
    PIOutcome :=
  match searchLoop r accuracy g halfW halfH points p0 with
  | (none, pts) => .restart (adjustedFont - 1 / 10) pts
  | (some pt, pts) =>
      .placed pt (stampGlyph r g.glyph (pt.1 + halfW, pt.2 + halfH)) pts
        (decide (currentIndex + 1 < nItems))

/-- Whether the invocation scheduled a follow-up `processItem` callback. -/
def schedulesFollowUp : PIOutcome → Bool
  | .restart _ _ => false
  | .placed _ _ _ s => s

/-- The scheduling state touched by `validate` (lines 448 and 463-465): the
current word index and whether a process timeout is pending. -/
structure SchedState where
  currentIndex : ℕ
  timerPending : Bool
deriving DecidableEq

/-- Re-validation: `_currentIndex = 0` and the pending timeout is disposed. -/
def validateReset (_s : SchedState) : SchedState :=
  { currentIndex := 0, timerPending := false }

/-! ### The collision check (C4) -/

theorem sampleHit_eq_false_iff (data : ℕ → ℕ) (len accuracy : ℕ) :
    sampleHit data len accuracy = false ↔
      ∀ i ∈ sampledIndices len accuracy, data i = 255 := by
  simp [sampleHit, List.any_eq_false]

/-- C4: a candidate site is rejected iff some byte of the rectangle's image
data, sampled at the multiples of `2 ^ accuracy` starting from index 0, is
not 255; and when every sampled byte is 255 the search loop accepts the site
`points[p]` and stops there. -/
theorem candidate_rejected_iff_sampled_nonbackground (r : Raster) (accuracy : ℕ)
    (g : LabelGeom) (halfW halfH : ℤ) (points : List Pt) (p : ℕ)
    (hp : p < points.length) :
    (∀ (data : ℕ → ℕ) (len : ℕ),
      sampleHit data len accuracy = true ↔
        ∃ k, k * 2 ^ accuracy < len ∧ data (k * 2 ^ accuracy) ≠ 255) ∧
    (sampleHit (imageDataAt r (wordRect g halfW halfH points[p]))
        (imageDataLen (wordRect g halfW halfH points[p])) accuracy = false →
      searchLoop r accuracy g halfW halfH points p = (some points[p], points)) := by
  constructor
  · intro data len
    simp only [sampleHit, sampledIndices, List.any_eq_true, List.mem_filter,
      List.mem_range, bne_iff_ne, ne_eq, beq_iff_eq]
    constructor
    · rintro ⟨i, ⟨hi, hmod⟩, hval⟩
      obtain ⟨k, rfl⟩ := Nat.dvd_iff_mod_eq_zero.mpr hmod
      exact ⟨k, by rw [Nat.mul_comm]; exact hi, by rw [Nat.mul_comm]; exact hval⟩
    · rintro ⟨k, hk, hval⟩
      exact ⟨k * 2 ^ accuracy, ⟨hk, Nat.mul_mod_left k (2 ^ accuracy)⟩, hval⟩
  · intro hmiss
    rw [searchLoop, dif_neg (by omega)]
    simp only [List.get_eq_getElem, hmiss, Bool.false_eq_true, if_false]

/-- Witness for C4 at a concrete input: an all-background 1×1 site is
accepted on the white raster. -/
theorem candidate_rejected_iff_witness :
    ((0 : ℕ) < 1) ∧
    (sampleHit (WC.imageDataAt whiteRaster (wordRect ⟨0, 1, 0, 1, 0, 0, 0, 0, 0, 0, []⟩ 0 0 (0, 0)))
        (imageDataLen (wordRect ⟨0, 1, 0, 1, 0, 0, 0, 0, 0, 0, []⟩ 0 0 (0, 0))) 5 = false →
      searchLoop whiteRaster 5 ⟨0, 1, 0, 1, 0, 0, 0, 0, 0, 0, []⟩ 0 0 [(0, 0)] 0 =
        (some (0, 0), [(0, 0)])) := by
  exact ⟨by decide,
    (candidate_rejected_iff_sampled_nonbackground whiteRaster 5
      ⟨0, 1, 0, 1, 0, 0, 0, 0, 0, 0, []⟩ 0 0 [(0, 0)] 0 (by decide)).2⟩

/-! ### Exhaustion, font shrink and restart (C3) -/

/-- C3: the invocation ends in a restart (word left unplaced, series
invalidated) exactly when the candidate search ran past the end of `_points`,
and in that case — the only degradation path — `_adjustedFont` drops by
exactly 0.1 and re-validation resumes from the first word with the pending
timer disposed. -/
theorem processItem_restart_iff (r : Raster) (accuracy : ℕ) (g : LabelGeom)
    (halfW halfH : ℤ) (points : List Pt) (p0 : ℕ) (adj : ℚ) (idx n : ℕ)
    (a : ℚ) (pts : List Pt) :
    (processItemModel r accuracy g halfW halfH points p0 adj idx n =
        PIOutcome.restart a pts ↔
      searchLoop r accuracy g halfW halfH points p0 = (none, pts) ∧
        a = adj - 1 / 10) ∧
    ∀ s : SchedState, validateReset s = ⟨0, false⟩ := by
  refine ⟨?_, fun s => rfl⟩
  unfold processItemModel
  rcases hsl : searchLoop r accuracy g halfW halfH points p0 with ⟨o, pts2⟩
  cases o with
  | none =>
    simp only [Prod.mk.injEq, PIOutcome.restart.injEq]
    constructor
    · rintro ⟨ha, hpts⟩
      exact ⟨⟨trivial, hpts⟩, ha.symm⟩
    · rintro ⟨⟨-, hpts⟩, ha⟩
      exact ⟨ha.symm, hpts⟩
  | some pt =>
    simp only [Prod.mk.injEq]
    constructor
    · intro hcontr; cases hcontr
    · rintro ⟨⟨hcontr, -⟩, -⟩; cases hcontr

/-! ### Follow-up scheduling (C7) -/

/-- Geometry of an empty label, used in concrete scheduling runs. -/
def triviaGeom : LabelGeom := ⟨0, 0, 0, 0, 0, 0, 0, 0, 0, 0, []⟩

/-- Counterexample to C7: with an exhausted (empty) candidate list, two data
items and `_currentIndex = 0`, the invocation takes the restart path and
schedules no follow-up callback even though `_currentIndex < dataItems.length
- 1` holds, refuting the claimed `if and only if`. -/
theorem schedule_iff_claim_counterexample :
    schedulesFollowUp (WC.processItemModel whiteRaster 5 triviaGeom 0 0 [] 0 1 0 2) =
      false ∧ (0 : ℕ) + 1 < 2 := by
  have hsl : searchLoop whiteRaster 5 triviaGeom 0 0 [] 0 = (none, []) := by
    rw [searchLoop, dif_pos (by simp)]
  refine ⟨?_, by omega⟩
  unfold processItemModel
  rw [hsl]
  rfl

/-- C7 as amended: an invocation schedules exactly one follow-up callback iff
it placed its word (the search succeeded) and `_currentIndex` is below
`dataItems.length - 1`; the restart path never schedules one. At most one word
is placed per invocation (the outcome carries at most one accepted point),
and re-validation disposes the pending timer and restarts from index 0. -/
theorem processItem_schedule_discipline (r : Raster) (accuracy : ℕ)
    (g : LabelGeom) (halfW halfH : ℤ) (points : List Pt) (p0 : ℕ) (adj : ℚ)
    (idx n : ℕ) :
    schedulesFollowUp (processItemModel r accuracy g halfW halfH points p0 adj idx n) =
      ((searchLoop r accuracy g halfW halfH points p0).1.isSome &&
        decide (idx + 1 < n)) ∧
    ∀ s : SchedState, (validateReset s).timerPending = false ∧
      (validateReset s).currentIndex = 0 := by
  refine ⟨?_, fun s => ⟨rfl, rfl⟩⟩
  unfold processItemModel
  rcases hsl : searchLoop r accuracy g halfW halfH points p0 with ⟨o, pts2⟩
  cases o with
  | none => rfl
  | some pt => simp [schedulesFollowUp]

/-! ### Placement runs and the non-overlap invariant (C2) -/

/-- A word that has been accepted and stamped: its geometry and the accepted
candidate point. -/
structure PlacedWord where
  geom : LabelGeom
  pt : Pt
deriving DecidableEq

/-- The margin-expanded getImageData rectangle of a placed word. -/
def placedRect (halfW halfH : ℤ) (w : PlacedWord) : Rect :=
  wordRect w.geom halfW halfH w.pt

/-- Whether canvas pixel `q` was painted when word `w` was stamped. -/
def stampedPixel (halfW halfH : ℤ) (w : PlacedWord) (q : Pt) : Prop :=
  (q.1 - (w.pt.1 + halfW), q.2 - (w.pt.2 + halfH)) ∈ w.geom.glyph

/-- Some raster sample taken within `w1`'s margin-expanded bounding box at
stride `2 ^ accuracy` addresses a pixel stamped by `w2`. -/
def sampleTouches (halfW halfH : ℤ) (accuracy : ℕ) (w1 w2 : PlacedWord) : Prop :=
  ∃ i ∈ sampledIndices (imageDataLen (placedRect halfW halfH w1)) accuracy,
    stampedPixel halfW halfH w2 (idxPos (placedRect halfW halfH w1) i)

/-- The invariant claimed by C2: for any two distinct placed words, neither
word's samples hit pixels stamped by the other. -/
def pairwiseNonOverlap (halfW halfH : ℤ) (accuracy : ℕ) (ws : List PlacedWord) :
    Prop :=
  ∀ w1 ∈ ws, ∀ w2 ∈ ws, w1 ≠ w2 → ¬ sampleTouches halfW halfH accuracy w1 w2

/-- One placement step of a layout pass: a site whose sampled bytes are all
background in the current raster is accepted, and the word's glyph is stamped
into the raster before the next word is checked. -/
inductive PlaceStep (halfW halfH : ℤ) (accuracy : ℕ) :
    Raster × List PlacedWord → Raster × List PlacedWord → Prop
  | place (r : Raster) (ws : List PlacedWord) (g : LabelGeom) (pt : Pt)
      (hAccept : sampleHit (imageDataAt r (wordRect g halfW halfH pt))
        (imageDataLen (wordRect g halfW halfH pt)) accuracy = false) :
      PlaceStep halfW halfH accuracy (r, ws)
        (stampGlyph r g.glyph (pt.1 + halfW, pt.2 + halfH), ws ++ [⟨g, pt⟩])

/-- States reachable from the freshly whitened canvas with no word placed. -/
def LayoutReachable (halfW halfH : ℤ) (accuracy : ℕ)
    (s : Raster × List PlacedWord) : Prop :=
  Relation.ReflTransGen (PlaceStep halfW halfH accuracy) (whiteRaster, []) s

/-- First word of the concrete two-word run: a 2×1 box at the origin whose
glyph lights the second pixel. -/
def runGeom1 : LabelGeom := ⟨0, 2, 0, 1, 0, 0, 0, 0, 0, 0, [(1, 0)]⟩

/-- Second word of the concrete run: the same 2×1 box, glyph lighting the
first pixel — the one the first word sampled. -/
def runGeom2 : LabelGeom := ⟨0, 2, 0, 1, 0, 0, 0, 0, 0, 0, [(0, 0)]⟩

def runWord1 : PlacedWord := ⟨runGeom1, (0, 0)⟩

def runWord2 : PlacedWord := ⟨runGeom2, (0, 0)⟩

/-- Raster after the first stamp. -/
def runRaster1 : Raster :=
  stampGlyph whiteRaster runGeom1.glyph ((0 : ℤ) + 0, (0 : ℤ) + 0)

/-- Raster after both stamps. -/
def runRaster2 : Raster :=
  stampGlyph runRaster1 runGeom2.glyph ((0 : ℤ) + 0, (0 : ℤ) + 0)

/-- The concrete two-word state is reachable with accuracy 3 (stride 8, so
each 2×1 box samples only its byte 0): word 2's single sample reads the
background byte of pixel (0,0) — word 1's glyph at (1,0) goes unseen — and is
accepted, then stamps pixel (0,0). -/
theorem layoutRunReachable :
    LayoutReachable 0 0 3 (runRaster2, [runWord1, runWord2]) := by
  have s1 : PlaceStep 0 0 3 (whiteRaster, []) (runRaster1, [runWord1]) :=
    PlaceStep.place whiteRaster [] runGeom1 (0, 0) (by decide)
  have s2 : PlaceStep 0 0 3 (runRaster1, [runWord1]) (runRaster2, [runWord1, runWord2]) :=
    PlaceStep.place runRaster1 [runWord1] runGeom2 (0, 0) (by decide)
  exact Relation.ReflTransGen.tail (Relation.ReflTransGen.single s1) s2

/-- Counterexample to C2: in the reachable two-word state above, the samples
of the *earlier* word (taken in its box at stride 8) hit pixel (0,0), which
the *later* word stamped; the claimed pairwise non-overlap of any two distinct
placed words is violated, because acceptance only protects a word from the
stamps already present when it is checked. -/
theorem pairwise_nonoverlap_counterexample :
    LayoutReachable 0 0 3 (runRaster2, [runWord1, runWord2]) ∧
    ¬ pairwiseNonOverlap 0 0 3 [runWord1, runWord2] := by
  refine ⟨layoutRunReachable, ?_⟩
  unfold pairwiseNonOverlap sampleTouches stampedPixel placedRect
  decide

/-- A raster reachable by placements is the white canvas with exactly the
stamped glyph pixels painted blue (all words stamp the same blue, so
overwrites are invisible). -/
theorem reachable_raster_eq (halfW halfH : ℤ) (accuracy : ℕ)
    (s : Raster × List PlacedWord) (h : LayoutReachable halfW halfH accuracy s)
    (x y : ℤ) (ch : ℕ) :
    ((∃ w ∈ s.2, stampedPixel halfW halfH w (x, y)) → s.1 x y ch = blueChannel ch) ∧
    ((¬ ∃ w ∈ s.2, stampedPixel halfW halfH w (x, y)) → s.1 x y ch = 255) := by
  induction h with
  | refl =>
    refine ⟨?_, fun _ => rfl⟩
    rintro ⟨w, hw, -⟩
    simp at hw
  | tail hsteps hstep ih =>
    cases hstep with
    | place r ws g pt hAcc =>
      by_cases hg : (x - (pt.1 + halfW), y - (pt.2 + halfH)) ∈ g.glyph
      · have hnew : stampedPixel halfW halfH ⟨g, pt⟩ (x, y) := hg
        constructor
        · intro
          simp only [stampGlyph, hg, if_pos]
        · intro hno
          exact absurd ⟨⟨g, pt⟩, by simp, hnew⟩ hno
      · have hnot : ¬ stampedPixel halfW halfH (⟨g, pt⟩ : PlacedWord) (x, y) := hg
        have hval : stampGlyph r g.glyph (pt.1 + halfW, pt.2 + halfH) x y ch
            = r x y ch := by
          simp only [stampGlyph, hg, if_false]
        constructor
        · rintro ⟨w, hw, hst⟩
          rcases List.mem_append.mp hw with hin | hin
          · show stampGlyph r g.glyph (pt.1 + halfW, pt.2 + halfH) x y ch = blueChannel ch
            rw [hval]
            exact ih.1 ⟨w, hin, hst⟩
          · cases List.mem_singleton.mp hin
            exact absurd hst hnot
        · intro hno
          show stampGlyph r g.glyph (pt.1 + halfW, pt.2 + halfH) x y ch = 255
          rw [hval]
          refine ih.2 ?_
          rintro ⟨w, hw, hst⟩
          exact hno ⟨w, List.mem_append.mpr (Or.inl hw), hst⟩

/-- C2 as amended: along any layout pass and at every accuracy, a placed
word's raster samples never hit pixels stamped by any *earlier*-placed word —
acceptance requires every sampled byte to be background, earlier stamps are
already in the raster, and the red-channel byte (value 0 after stamping) of
every sample-addressed pixel is itself sampled: strides 1, 2 and 4 divide 4,
and larger power-of-two strides land on red channels only. The symmetric
guarantee against later-placed words does not hold. -/
theorem layout_earlier_words_not_touched (halfW halfH : ℤ) (accuracy : ℕ)
    (s : Raster × List PlacedWord)
    (h : LayoutReachable halfW halfH accuracy s) :
    ∀ (j : ℕ) (hj : j < s.2.length) (i : ℕ) (hi : i < j),
      ¬ sampleTouches halfW halfH accuracy (s.2.get ⟨j, hj⟩) (s.2.get ⟨i, by omega⟩) := by
  induction h with
  | refl => intro j hj; simp at hj
  | tail hsteps hstep ih =>
    cases hstep with
    | place r ws g pt hAcc =>
      intro j hj i hi htouch
      simp only [List.get_eq_getElem] at htouch ih
      simp only [List.length_append, List.length_singleton] at hj
      rcases Nat.lt_or_ge j ws.length with hjl | hje
      · have hil : i < ws.length := by omega
        rw [List.getElem_append_left hjl, List.getElem_append_left hil] at htouch
        exact ih j hjl i hi htouch
      · have hj' : j = ws.length := by omega
        subst hj'
        have hil : i < ws.length := hi
        rw [List.getElem_append_left hil] at htouch
        rw [List.getElem_concat_length] at htouch
        obtain ⟨idx, hidx, hstamped⟩ := htouch
        have hidx2 : idx < imageDataLen (wordRect g halfW halfH pt) ∧
            idx % 2 ^ accuracy = 0 := by
          simpa only [sampledIndices, List.mem_filter, List.mem_range,
            beq_iff_eq] using hidx
        have hjmod : 4 * (idx / 4) % 2 ^ accuracy = 0 := by
          rcases Nat.lt_or_ge accuracy 2 with hlt | hge
          · have h2 : 2 ^ accuracy ∣ 2 ^ 2 := pow_dvd_pow 2 (by omega)
            norm_num at h2
            exact Nat.dvd_iff_mod_eq_zero.mp (h2.trans ⟨idx / 4, rfl⟩)
          · have hdvd4 : (4 : ℕ) ∣ 2 ^ accuracy := by
              refine ⟨2 ^ (accuracy - 2), ?_⟩
              have h22 : (4 : ℕ) = 2 ^ 2 := by norm_num
              rw [h22, ← pow_add]
              congr 1
              omega
            have hidx4 : idx % 4 = 0 :=
              Nat.dvd_iff_mod_eq_zero.mp
                (hdvd4.trans (Nat.dvd_iff_mod_eq_zero.mpr hidx2.2))
            have hje : 4 * (idx / 4) = idx := by omega
            rw [hje]
            exact hidx2.2
        have hjlt : 4 * (idx / 4) < imageDataLen (wordRect g halfW halfH pt) := by
          have hle : 4 * (idx / 4) ≤ idx := by omega
          omega
        have hjmem : 4 * (idx / 4) ∈
            sampledIndices (imageDataLen (wordRect g halfW halfH pt)) accuracy := by
          simp only [sampledIndices, List.mem_filter, List.mem_range, beq_iff_eq]
          exact ⟨hjlt, hjmod⟩
        have h255 : imageDataAt r (wordRect g halfW halfH pt) (4 * (idx / 4)) = 255 :=
          (sampleHit_eq_false_iff _ _ _).mp hAcc _ hjmem
        have hposeq : idxPos (wordRect g halfW halfH pt) (4 * (idx / 4)) =
            idxPos (wordRect g halfW halfH pt) idx := by
          unfold idxPos
          have hdc : 4 * (idx / 4) / 4 = idx / 4 :=
            Nat.mul_div_cancel_left _ (by norm_num)
          rw [hdc]
        have hch : 4 * (idx / 4) % 4 = 0 := Nat.mul_mod_right 4 _
        have hmem : ∃ w ∈ ws, stampedPixel halfW halfH w
            ((idxPos (wordRect g halfW halfH pt) (4 * (idx / 4))).1,
              (idxPos (wordRect g halfW halfH pt) (4 * (idx / 4))).2) := by
          rw [hposeq]
          exact ⟨ws.get ⟨i, hil⟩, List.get_mem ws i hil, by
            simpa only [List.get_eq_getElem] using hstamped⟩
        have hblue : imageDataAt r (wordRect g halfW halfH pt) (4 * (idx / 4)) =
            blueChannel (4 * (idx / 4) % 4) :=
          (reachable_raster_eq halfW halfH accuracy _ hsteps
            (idxPos (wordRect g halfW halfH pt) (4 * (idx / 4))).1
            (idxPos (wordRect g halfW halfH pt) (4 * (idx / 4))).2
            (4 * (idx / 4) % 4)).1 hmem
        rw [h255, hch] at hblue
        simp [blueChannel] at hblue
        rfl

/-- Witness for C2's amended statement on the concrete two-word run: the
later-placed word's samples avoid the earlier word's stamped pixels. -/
theorem layout_earlier_words_not_touched_witness :
    ¬ sampleTouches 0 0 3 ([runWord1, runWord2][1]) ([runWord1, runWord2][0]) :=
  layout_earlier_words_not_touched 0 0 3
    (runRaster2, [runWord1, runWord2]) layoutRunReachable 1 (by norm_num) 0
    (by norm_num)

end WC

namespace Time

/-! ## Time-unit rounding (Time.ts lines 242-349) -/

/-- The eight time units of defs/TimeUnit.ts, as switched on by `round`. -/
inductive TimeUnit where
  | millisecond
  | second
  | minute
  | hour
  | day
  | week
  | month
  | year
deriving DecidableEq

/-- A JS `Date` as its UTC calendar fields: `getUTCFullYear`, `getUTCMonth`
(0-11), `getUTCDate` (1-based day of month), `getUTCHours`, `getUTCMinutes`,
`getUTCSeconds`, `getUTCMilliseconds`. -/
structure JSDate where
  year : ℤ
  month : ℤ
  day : ℤ
  hour : ℤ
  minute : ℤ
  second : ℤ
  ms : ℤ
deriving DecidableEq

/-- Proleptic Gregorian leap-year rule used by JS dates. -/
def isLeap (y : ℤ) : Bool := (y % 4 == 0 && y % 100 != 0) || y % 400 == 0

/-- Days in month `m` (0-based) of year `y`. -/
def daysInMonth (y m : ℤ) : ℤ :=
  if m = 1 then (if isLeap y then 29 else 28)
  else if m = 3 ∨ m = 5 ∨ m = 8 ∨ m = 10 then 30
  else 31

/-- Days before the (0-based) month `m` within a year: the running sum of
`daysInMonth`. -/
def monthOffsetN (y : ℤ) : ℕ → ℤ
  | 0 => 0
  | m + 1 => monthOffsetN y m + daysInMonth y m

def monthOffset (y m : ℤ) : ℤ := monthOffsetN y m.toNat

/-- Number of leap years strictly before year `y` (as a running count whose
differences matter; constants cancel in day-number differences). -/
def leapsBefore (y : ℤ) : ℤ := (y - 1) / 4 - (y - 1) / 100 + (y - 1) / 400

/-- Day number of `y`-01-01, relative to 1970-01-01 (day 0). -/
def yearStart (y : ℤ) : ℤ := 365 * (y - 1970) + (leapsBefore y - leapsBefore 1970)

/-- Day number of a (possibly day-denormalized) calendar triple: linear in the
day field. -/
def extDayNumber (y m d : ℤ) : ℤ := yearStart y + monthOffset y m + (d - 1)

/-- Day number (days since the epoch) of a date. -/
def dayNumber (dt : JSDate) : ℤ := extDayNumber dt.year dt.month dt.day

/-- The model of `getUTCDay`: 1970-01-01 was a Thursday (4), and `emod`
yields a value in 0..6 for any day number. -/
def weekday (dt : JSDate) : ℤ := (dayNumber dt + 4) % 7

/-- JS setter normalization, borrow direction: while the day of month is below
1, move to the previous month (December of the previous year when the month
is 0) and add its length. -/
def borrowDay (dt : JSDate) : JSDate :=
  if 1 ≤ dt.day then dt
  else if dt.month = 0 then
    borrowDay { dt with year := dt.year - 1, month := 11, day := dt.day + 31 }
  else
    borrowDay
      { dt with
        month := dt.month - 1
        day := dt.day + daysInMonth dt.year (dt.month - 1) }
termination_by (1 - dt.day).toNat
decreasing_by
  · omega
  · have h28 : (28 : ℤ) ≤ daysInMonth dt.year (dt.month - 1) := by
      unfold daysInMonth
      split
      · split <;> omega
      · split <;> omega
    omega

/-- JS setter normalization, carry direction: while the day of month exceeds
the month length, subtract it and move to the next month (January of the next
year after December). -/
def carryDay (dt : JSDate) : JSDate :=
  if dt.day ≤ daysInMonth dt.year dt.month then dt
  else if dt.month = 11 then
    carryDay { dt with year := dt.year + 1, month := 0, day := dt.day - 31 }
  else
    carryDay
      { dt with
        month := dt.month + 1
        day := dt.day - daysInMonth dt.year dt.month }
termination_by dt.day.toNat
decreasing_by
  all_goals
    have h28 : (28 : ℤ) ≤ daysInMonth dt.year dt.month := by
      unfold daysInMonth
      split
      · split <;> omega
      · split <;> omega
    omega

/-- `date.setUTCDate(v)`: replace the day of month by `v`, normalizing
out-of-range values exactly as JS does (shifting through adjacent months). -/
def setUTCDate (dt : JSDate) (v : ℤ) : JSDate :=
  carryDay (borrowDay { dt with day := v })

/-- Model of `Time.round` (Time.ts lines 242-349). `count` is always a number
here (the `$type.isNumber` guard merely defaults a missing count to 1);
`Math.floor` on a division of JS numbers is floor division, `Int.fdiv`. The
setter arguments other than `setUTCDate`'s day are always in range at these
call sites (they come from the matching getters or are literals), so those
setters are plain field updates. -/
def round (date : JSDate) (unit : TimeUnit) (count : ℤ)
    (firstDateOfWeek : Option ℤ) : JSDate :=
  match unit with
  | .day =>
    let day := date.day
    let day := if 1 < count then Int.fdiv day count * count else day
    let d1 := setUTCDate date day
    { d1 with hour := 0, minute := 0, second := 0, ms := 0 }
  | .second =>
    let seconds := date.second
    let seconds := if 1 < count then Int.fdiv seconds count * count else seconds
    { date with second := seconds, ms := 0 }
  | .millisecond =>
    if count = 1 then date
    else { date with ms := Int.fdiv date.ms count * count }
  | .hour =>
    let hours := date.hour
    let hours := if 1 < count then Int.fdiv hours count * count else hours
    { date with hour := hours, minute := 0, second := 0, ms := 0 }
  | .minute =>
    let minutes := date.minute
    let minutes := if 1 < count then Int.fdiv minutes count * count else minutes
    { date with minute := minutes, second := 0, ms := 0 }
  | .month =>
    let month := date.month
    let month := if 1 < count then Int.fdiv month count * count else month
    { date with month := month, day := 1, hour := 0, minute := 0, second := 0, ms := 0 }
  | .year =>
    let year := date.year
    let year := if 1 < count then Int.fdiv year count * count else year
    { date with
        year := year, month := 0, day := 1,
        hour := 0, minute := 0, second := 0, ms := 0 }
  | .week =>
    let wday := date.day
    let weekDay := weekday date
    let f := firstDateOfWeek.getD 1
    let wday := if f ≤ weekDay then wday - weekDay + f else wday - (7 + weekDay) + f
    let d1 := setUTCDate date wday
    { d1 with hour := 0, minute := 0, second := 0, ms := 0 }

/-- A normalized (real) JS date: the fields are in the ranges the getters
produce. -/
def ValidDate (dt : JSDate) : Prop :=
  0 ≤ dt.month ∧ dt.month ≤ 11 ∧ 1 ≤ dt.day ∧ dt.day ≤ daysInMonth dt.year dt.month ∧
  0 ≤ dt.hour ∧ dt.hour ≤ 23 ∧ 0 ≤ dt.minute ∧ dt.minute ≤ 59 ∧
  0 ≤ dt.second ∧ dt.second ≤ 59 ∧ 0 ≤ dt.ms ∧ dt.ms ≤ 999

instance (dt : JSDate) : Decidable (ValidDate dt) := by
  unfold ValidDate
  infer_instance

/-! ### Calendar lemmas -/

theorem daysInMonth_ge (y m : ℤ) : 28 ≤ daysInMonth y m := by
  unfold daysInMonth
  split
  · split <;> omega
  · split <;> omega

theorem daysInMonth_11 (y : ℤ) : daysInMonth y 11 = 31 := by
  norm_num [daysInMonth]

theorem isLeap_iff (y : ℤ) :
    isLeap y = true ↔ (y % 4 = 0 ∧ ¬ y % 100 = 0) ∨ y % 400 = 0 := by
  simp [isLeap]

theorem yearStart_succ (y : ℤ) :
    yearStart y = yearStart (y - 1) + 365 + (if isLeap (y - 1) = true then 1 else 0) := by
  unfold yearStart leapsBefore
  split_ifs with h
  · rw [isLeap_iff] at h
    omega
  · rw [isLeap_iff] at h
    omega

theorem monthOffset_year_total (y : ℤ) :
    monthOffset y 11 + daysInMonth y 11 = 365 + (if isLeap y = true then 1 else 0) := by
  cases h : isLeap y <;> simp [monthOffset, monthOffsetN, daysInMonth, h]

theorem monthOffset_succ (y m : ℤ) (hm : 0 ≤ m) :
    monthOffset y (m + 1) = monthOffset y m + daysInMonth y m := by
  unfold monthOffset
  have h1 : (m + 1).toNat = m.toNat + 1 := by omega
  rw [h1]
  show monthOffsetN y m.toNat + daysInMonth y (m.toNat : ℤ) =
    monthOffsetN y m.toNat + daysInMonth y m
  rw [Int.toNat_of_nonneg hm]

theorem extDayNumber_prev_year (y d : ℤ) :
    extDayNumber (y - 1) 11 (d + 31) = extDayNumber y 0 d := by
  have hys := yearStart_succ y
  have h11 := monthOffset_year_total (y - 1)
  rw [daysInMonth_11 (y - 1)] at h11
  unfold extDayNumber
  have h0 : monthOffset y 0 = 0 := rfl
  rw [h0]
  split_ifs at hys h11 <;> omega

theorem extDayNumber_prev_month (y m d : ℤ) (hm : 1 ≤ m) :
    extDayNumber y (m - 1) (d + daysInMonth y (m - 1)) = extDayNumber y m d := by
  unfold extDayNumber
  have hs := monthOffset_succ y (m - 1) (by omega)
  have hm1 : m - 1 + 1 = m := by ring
  rw [hm1] at hs
  omega

theorem extDayNumber_next_year (y d : ℤ) :
    extDayNumber (y + 1) 0 (d - 31) = extDayNumber y 11 d := by
  have hys := yearStart_succ (y + 1)
  have hy1 : y + 1 - 1 = y := by ring
  rw [hy1] at hys
  have h11 := monthOffset_year_total y
  rw [daysInMonth_11 y] at h11
  unfold extDayNumber
  have h0 : monthOffset (y + 1) 0 = 0 := rfl
  rw [h0]
  split_ifs at hys h11 <;> omega

theorem extDayNumber_next_month (y m d : ℤ) (hm : 0 ≤ m) :
    extDayNumber y (m + 1) (d - daysInMonth y m) = extDayNumber y m d := by
  unfold extDayNumber
  have hs := monthOffset_succ y m hm
  omega

/-! ### Normalization stepping lemmas -/

theorem borrowDay_eq_self (dt : JSDate) (h : 1 ≤ dt.day) : borrowDay dt = dt := by
  conv_lhs => rw [borrowDay]
  rw [if_pos h]

theorem borrowDay_eq_prev_year (dt : JSDate) (h : ¬ 1 ≤ dt.day)
    (hm : dt.month = 0) :
    borrowDay dt =
      borrowDay { dt with year := dt.year - 1, month := 11, day := dt.day + 31 } := by
  conv_lhs => rw [borrowDay]
  rw [if_neg h, if_pos hm]

theorem borrowDay_eq_prev_month (dt : JSDate) (h : ¬ 1 ≤ dt.day)
    (hm : ¬ dt.month = 0) :
    borrowDay dt =
      borrowDay
        { dt with
          month := dt.month - 1
          day := dt.day + daysInMonth dt.year (dt.month - 1) } := by
  conv_lhs => rw [borrowDay]
  rw [if_neg h, if_neg hm]

theorem carryDay_eq_self (dt : JSDate)
    (h : dt.day ≤ daysInMonth dt.year dt.month) : carryDay dt = dt := by
  conv_lhs => rw [carryDay]
  rw [if_pos h]

theorem carryDay_eq_next_year (dt : JSDate)
    (h : ¬ dt.day ≤ daysInMonth dt.year dt.month) (hm : dt.month = 11) :
    carryDay dt =
      carryDay { dt with year := dt.year + 1, month := 0, day := dt.day - 31 } := by
  conv_lhs => rw [carryDay]
  rw [if_neg h, if_pos hm]

theorem carryDay_eq_next_month (dt : JSDate)
    (h : ¬ dt.day ≤ daysInMonth dt.year dt.month) (hm : ¬ dt.month = 11) :
    carryDay dt =
      carryDay
        { dt with
          month := dt.month + 1
          day := dt.day - daysInMonth dt.year dt.month } := by
  conv_lhs => rw [carryDay]
  rw [if_neg h, if_neg hm]

/-- Borrowing preserves the day number and the time fields, keeps the month in
range, and lands on a day of month at least 1 (and at most the month length
unless it was a no-op). -/
theorem borrowDay_spec (dt : JSDate) : 0 ≤ dt.month → dt.month ≤ 11 →
    dayNumber (borrowDay dt) = dayNumber dt ∧
    0 ≤ (borrowDay dt).month ∧ (borrowDay dt).month ≤ 11 ∧
    1 ≤ (borrowDay dt).day ∧
    ((borrowDay dt).day ≤ daysInMonth (borrowDay dt).year (borrowDay dt).month ∨
      borrowDay dt = dt) ∧
    (borrowDay dt).hour = dt.hour ∧ (borrowDay dt).minute = dt.minute ∧
    (borrowDay dt).second = dt.second ∧ (borrowDay dt).ms = dt.ms := by
  induction dt using borrowDay.induct with
  | case1 x h =>
    intro hm0 hm1
    rw [borrowDay_eq_self x h]
    exact ⟨rfl, hm0, hm1, h, Or.inr rfl, rfl, rfl, rfl, rfl⟩
  | case2 x h hm ih =>
    intro hm0 hm1
    rw [borrowDay_eq_prev_year x h hm]
    obtain ⟨ih1, ih2, ih3, ih4, ih5, ih6, ih7, ih8, ih9⟩ :=
      ih (by norm_num) (by norm_num)
    refine ⟨?_, ih2, ih3, ih4, ?_, ih6, ih7, ih8, ih9⟩
    · rw [ih1]
      show extDayNumber (x.year - 1) 11 (x.day + 31) = dayNumber x
      rw [extDayNumber_prev_year]
      unfold dayNumber
      rw [hm]
    · rcases ih5 with h5 | h5
      · exact Or.inl h5
      · left
        rw [h5]
        show x.day + 31 ≤
          daysInMonth
            ({ x with year := x.year - 1, month := 11, day := x.day + 31 } : JSDate).year
            11
        rw [daysInMonth_11]
        omega
  | case3 x h hm ih =>
    intro hm0 hm1
    rw [borrowDay_eq_prev_month x h hm]
    have hm1' : 1 ≤ x.month := by omega
    obtain ⟨ih1, ih2, ih3, ih4, ih5, ih6, ih7, ih8, ih9⟩ :=
      ih (by simp only; omega) (by simp only; omega)
    refine ⟨?_, ih2, ih3, ih4, ?_, ih6, ih7, ih8, ih9⟩
    · rw [ih1]
      show extDayNumber x.year (x.month - 1)
          (x.day + daysInMonth x.year (x.month - 1)) = dayNumber x
      rw [extDayNumber_prev_month x.year x.month x.day hm1']
      rfl
    · rcases ih5 with h5 | h5
      · exact Or.inl h5
      · left
        rw [h5]
        show x.day + daysInMonth x.year (x.month - 1) ≤
          daysInMonth x.year (x.month - 1)
        omega

/-- Carrying preserves the day number and the time fields, keeps the month in
range, and lands on a day of month in range. -/
theorem carryDay_spec (dt : JSDate) : 0 ≤ dt.month → dt.month ≤ 11 →
    1 ≤ dt.day →
    dayNumber (carryDay dt) = dayNumber dt ∧
    0 ≤ (carryDay dt).month ∧ (carryDay dt).month ≤ 11 ∧
    1 ≤ (carryDay dt).day ∧
    (carryDay dt).day ≤ daysInMonth (carryDay dt).year (carryDay dt).month ∧
    (carryDay dt).hour = dt.hour ∧ (carryDay dt).minute = dt.minute ∧
    (carryDay dt).second = dt.second ∧ (carryDay dt).ms = dt.ms := by
  induction dt using carryDay.induct with
  | case1 x h =>
    intro hm0 hm1 hd
    rw [carryDay_eq_self x h]
    exact ⟨rfl, hm0, hm1, hd, h, rfl, rfl, rfl, rfl⟩
  | case2 x h hm ih =>
    intro hm0 hm1 hd
    rw [carryDay_eq_next_year x h hm]
    have hdim : daysInMonth x.year x.month = 31 := by rw [hm, daysInMonth_11]
    obtain ⟨ih1, ih2, ih3, ih4, ih5, ih6, ih7, ih8, ih9⟩ :=
      ih (by norm_num) (by norm_num) (by simp only; omega)
    refine ⟨?_, ih2, ih3, ih4, ih5, ih6, ih7, ih8, ih9⟩
    rw [ih1]
    show extDayNumber (x.year + 1) 0 (x.day - 31) = dayNumber x
    rw [extDayNumber_next_year]
    unfold dayNumber
    rw [hm]
  | case3 x h hm ih =>
    intro hm0 hm1 hd
    rw [carryDay_eq_next_month x h hm]
    have hge := daysInMonth_ge x.year x.month
    obtain ⟨ih1, ih2, ih3, ih4, ih5, ih6, ih7, ih8, ih9⟩ :=
      ih (by simp only; omega) (by simp only; omega) (by simp only; omega)
    refine ⟨?_, ih2, ih3, ih4, ih5, ih6, ih7, ih8, ih9⟩
    rw [ih1]
    show extDayNumber x.year (x.month + 1) (x.day - daysInMonth x.year x.month) =
      dayNumber x
    rw [extDayNumber_next_month x.year x.month x.day hm0]
    rfl

/-- The model of `setUTCDate` shifts the day number by the difference of day
fields, keeps the calendar fields in range and leaves the time of day
untouched. -/
theorem setUTCDate_spec (dt : JSDate) (v : ℤ) (hm0 : 0 ≤ dt.month)
    (hm1 : dt.month ≤ 11) :
    dayNumber (setUTCDate dt v) = dayNumber dt - dt.day + v ∧
    0 ≤ (setUTCDate dt v).month ∧ (setUTCDate dt v).month ≤ 11 ∧
    1 ≤ (setUTCDate dt v).day ∧
    (setUTCDate dt v).day ≤
      daysInMonth (setUTCDate dt v).year (setUTCDate dt v).month ∧
    (setUTCDate dt v).hour = dt.hour ∧ (setUTCDate dt v).minute = dt.minute ∧
    (setUTCDate dt v).second = dt.second ∧ (setUTCDate dt v).ms = dt.ms := by
  unfold setUTCDate
  obtain ⟨b1, b2, b3, b4, b5, b6, b7, b8, b9⟩ :=
    borrowDay_spec { dt with day := v } hm0 hm1
  obtain ⟨c1, c2, c3, c4, c5, c6, c7, c8, c9⟩ :=
    carryDay_spec (borrowDay { dt with day := v }) b2 b3 b4
  have hdn : dayNumber ({ dt with day := v } : JSDate) =
      dayNumber dt - dt.day + v := by
    unfold dayNumber extDayNumber
    simp only
    omega
  rcases b5 with hb | hb
  · exact ⟨by rw [c1, b1, hdn], c2, c3, c4, c5, by rw [c6, b6], by rw [c7, b7],
      by rw [c8, b8], by rw [c9, b9]⟩
  · exact ⟨by rw [c1, b1, hdn], c2, c3, c4, c5, by rw [c6, b6], by rw [c7, b7],
      by rw [c8, b8], by rw [c9, b9]⟩

/-- Setting the day of month to its current (in-range) value is the
identity. -/
theorem setUTCDate_self (dt : JSDate) (h1 : 1 ≤ dt.day)
    (h2 : dt.day ≤ daysInMonth dt.year dt.month) : setUTCDate dt dt.day = dt := by
  unfold setUTCDate
  have he : ({ dt with day := dt.day } : JSDate) = dt := rfl
  rw [he, borrowDay_eq_self dt h1, carryDay_eq_self dt h2]

/-- Zeroing the time of day, the effect of `setUTCHours(0, 0, 0, 0)`. -/
def zeroTime (dt : JSDate) : JSDate :=
  { dt with hour := 0, minute := 0, second := 0, ms := 0 }

theorem zeroTime_idem (dt : JSDate) : zeroTime (zeroTime dt) = zeroTime dt := rfl

theorem round_day_eq (d : JSDate) (h1 : 1 ≤ d.day)
    (h2 : d.day ≤ daysInMonth d.year d.month) :
    round d .day 1 none = zeroTime d := by
  show ({ setUTCDate d (if (1 : ℤ) < 1 then Int.fdiv d.day 1 * 1 else d.day) with
    hour := 0, minute := 0, second := 0, ms := 0 } : JSDate) = zeroTime d
  rw [if_neg (by norm_num : ¬ (1 : ℤ) < 1)]
  rw [setUTCDate_self d h1 h2]
  rfl

theorem round_week_eq (d : JSDate) :
    round d .week 1 none =
      zeroTime (setUTCDate d
        (if 1 ≤ weekday d then d.day - weekday d + 1
         else d.day - (7 + weekday d) + 1)) := by
  show ({ setUTCDate d
      (if Option.getD none 1 ≤ weekday d then d.day - weekday d + Option.getD none 1
       else d.day - (7 + weekday d) + Option.getD none 1) with
    hour := 0, minute := 0, second := 0, ms := 0 } : JSDate) = _
  rfl

/-- C10: `Time.round` with count 1 is idempotent: for every valid date and
every time unit, rounding an already-rounded date changes nothing. In this
state-passing embedding the in-place mutation of the source (`return date`
after the `setUTC*` calls) is represented by `round` returning the updated
state of its argument. -/
theorem round_count_one_idempotent (d : JSDate) (u : TimeUnit)
    (hv : ValidDate d) :
    round (round d u 1 none) u 1 none = round d u 1 none := by
  obtain ⟨hm0, hm1, hd1, hd2, hrest⟩ := hv
  cases u with
  | millisecond => rfl
  | second => rfl
  | minute => rfl
  | hour => rfl
  | month => rfl
  | year => rfl
  | day =>
    rw [round_day_eq d hd1 hd2]
    rw [round_day_eq (zeroTime d) hd1 hd2]
    exact zeroTime_idem d
  | week =>
    rw [round_week_eq d]
    have hN : weekday d = (dayNumber d + 4) % 7 := rfl
    by_cases hwd : 1 ≤ weekday d
    · rw [if_pos hwd]
      obtain ⟨s1, s2, s3, s4, s5, s6, s7, s8, s9⟩ :=
        setUTCDate_spec d (d.day - weekday d + 1) hm0 hm1
      rw [round_week_eq]
      have hw1 : weekday (zeroTime (setUTCDate d (d.day - weekday d + 1))) = 1 := by
        show (dayNumber (setUTCDate d (d.day - weekday d + 1)) + 4) % 7 = 1
        rw [s1, hN]
        omega
      rw [hw1]
      rw [if_pos (by norm_num : (1 : ℤ) ≤ 1)]
      have hv2 : (zeroTime (setUTCDate d (d.day - weekday d + 1))).day - 1 + 1 =
          (zeroTime (setUTCDate d (d.day - weekday d + 1))).day := by ring
      rw [hv2]
      rw [setUTCDate_self (zeroTime (setUTCDate d (d.day - weekday d + 1)))
        (show (1 : ℤ) ≤ (zeroTime (setUTCDate d (d.day - weekday d + 1))).day from s4)
        (show (zeroTime (setUTCDate d (d.day - weekday d + 1))).day ≤ daysInMonth
            (zeroTime (setUTCDate d (d.day - weekday d + 1))).year
            (zeroTime (setUTCDate d (d.day - weekday d + 1))).month from s5)]
      exact zeroTime_idem _
    · rw [if_neg hwd]
      obtain ⟨s1, s2, s3, s4, s5, s6, s7, s8, s9⟩ :=
        setUTCDate_spec d (d.day - (7 + weekday d) + 1) hm0 hm1
      rw [round_week_eq]
      have hw1 : weekday (zeroTime (setUTCDate d (d.day - (7 + weekday d) + 1))) = 1 := by
        show (dayNumber (setUTCDate d (d.day - (7 + weekday d) + 1)) + 4) % 7 = 1
        rw [s1, hN]
        omega
      rw [hw1]
      rw [if_pos (by norm_num : (1 : ℤ) ≤ 1)]
      have hv2 : (zeroTime (setUTCDate d (d.day - (7 + weekday d) + 1))).day - 1 + 1 =
          (zeroTime (setUTCDate d (d.day - (7 + weekday d) + 1))).day := by ring
      rw [hv2]
      rw [setUTCDate_self (zeroTime (setUTCDate d (d.day - (7 + weekday d) + 1)))
        (show (1 : ℤ) ≤ (zeroTime (setUTCDate d (d.day - (7 + weekday d) + 1))).day from s4)
        (show (zeroTime (setUTCDate d (d.day - (7 + weekday d) + 1))).day ≤ daysInMonth
            (zeroTime (setUTCDate d (d.day - (7 + weekday d) + 1))).year
            (zeroTime (setUTCDate d (d.day - (7 + weekday d) + 1))).month from s5)]
      exact zeroTime_idem _

/-- Witness for C10 at a concrete valid date (2021-06-15 10:30:45.500 UTC)
and the week unit, the one with nontrivial normalization. -/
theorem round_count_one_idempotent_witness :
    ValidDate ⟨2021, 5, 15, 10, 30, 45, 500⟩ ∧
    round (round ⟨2021, 5, 15, 10, 30, 45, 500⟩ .week 1 none) .week 1 none =
      round ⟨2021, 5, 15, 10, 30, 45, 500⟩ .week 1 none :=
  ⟨by decide,
    round_count_one_idempotent ⟨2021, 5, 15, 10, 30, 45, 500⟩ .week (by decide)⟩

end Time

